import Mathlib

/-!
Shallow embedding of `src/main.rs` (kyoen): integer-grid points, the exact
collinearity predicate, the 4-point concyclicity determinant test, the
combination enumerator, and the search driver of `main`.

Modelling conventions:
* Rust `i32` coordinates are modelled as `ℤ` (the program only ever applies
  the predicates to grid coordinates `0..=6`, far from any overflow).
* Rust `f64` arithmetic is modelled by exact rational arithmetic: every
  matrix entry produced from an integer point is an integer, so the value
  computed is the exact determinant.
* Console output of `main` is modelled as a list of events (found / not
  found / the final line); progress lines of the per-`n` scan are modelled
  as the list of reported counts.
-/

/-- Rust: `type Point = (i32, i32);`. -/
abbrev Point := ℤ × ℤ

/-- Rust `area2`: twice the signed area of the triangle `p1 p2 p3`, the
integer cross product `(x2 - x1) * (y3 - y1) - (y2 - y1) * (x3 - x1)`. -/
def area2 (p1 p2 p3 : Point) : ℤ :=
  (p2.1 - p1.1) * (p3.2 - p1.2) - (p2.2 - p1.2) * (p3.1 - p1.1)

/-- Rust `four_points_are_collinear`: `p1 p2 p3` collinear and `p1 p2 p4`
collinear, both via `area2 == 0`. -/
def four_points_are_collinear (p1 p2 p3 p4 : Point) : Bool :=
  area2 p1 p2 p3 == 0 && area2 p1 p2 p4 == 0

/-- Rust `det3`: the 3x3 determinant, entries given row-major.  The source
computes in `f64` on entries that are (exactly representable) integers and
uses only `+`, `-`, `*`, so it is stated over any commutative ring and the
embedding instantiates it exactly. -/
def det3 {R : Type} [CommRing R] (m00 m01 m02 m10 m11 m12 m20 m21 m22 : R) :
    R :=
  m00 * (m11 * m22 - m12 * m21)
    - m01 * (m10 * m22 - m12 * m20)
    + m02 * (m10 * m21 - m11 * m20)

/-- Rust `det4`: Laplace cofactor expansion along row 0 — the loop over
`i = 0..4` with sign `(-1)^i`, multiplier `m[0][i]` and minor obtained by
deleting row 0 and column `i` — written out. -/
def det4 {R : Type} [CommRing R] (m00 m01 m02 m03 m10 m11 m12 m13
    m20 m21 m22 m23 m30 m31 m32 m33 : R) : R :=
  m00 * det3 m11 m12 m13 m21 m22 m23 m31 m32 m33
    - m01 * det3 m10 m12 m13 m20 m22 m23 m30 m32 m33
    + m02 * det3 m10 m11 m13 m20 m21 m23 m30 m31 m33
    - m03 * det3 m10 m11 m12 m20 m21 m22 m30 m31 m32

/-- Rust `EPS = 1.0e-12`, modelled as the exact rational `10 ^ (-12)`
(given by its reduced numerator and denominator so that it evaluates by
kernel reduction; `EPS_eq` below restates it as `1 / 10^12`). -/
def EPS : ℚ := ⟨1, 1000000000000, by norm_num, by simp⟩

/-- The `det_value` computed by `four_points_are_concyclic`: `det4` applied
to the matrix `mat` whose row `i` is `[xᵢ*xᵢ + yᵢ*yᵢ, xᵢ, yᵢ, 1]`. -/
def concyclicDet (p1 p2 p3 p4 : Point) : ℤ :=
  det4 (p1.1 * p1.1 + p1.2 * p1.2) p1.1 p1.2 1
       (p2.1 * p2.1 + p2.2 * p2.2) p2.1 p2.2 1
       (p3.1 * p3.1 + p3.2 * p3.2) p3.1 p3.2 1
       (p4.1 * p4.1 + p4.2 * p4.2) p4.1 p4.2 1

/-- Rust `four_points_are_concyclic`: returns `true` outright when the four
points are collinear; otherwise builds the lifted-paraboloid matrix with
row `i = [xᵢ² + yᵢ², xᵢ, yᵢ, 1]`, evaluates its determinant with `det4`,
and tests `|det_value| < EPS`.  The `f64` arithmetic of the source on these
integer entries is modelled exactly: the determinant is computed as an
integer and the `EPS` comparison is taken in `ℚ`. -/
def four_points_are_concyclic (p1 p2 p3 p4 : Point) : Bool :=
  if four_points_are_collinear p1 p2 p3 p4 then true
  else decide (|(concyclicDet p1 p2 p3 p4 : ℚ)| < EPS)

/-- itertools `combinations(n)`: all `n`-element combinations of the input
list, each in input order, enumerated lexicographically by position. -/
def combinations : Nat → List α → List (List α)
  | 0, _ => [[]]
  | _ + 1, [] => []
  | n + 1, x :: xs =>
      (combinations n xs).map (fun c => x :: c) ++ combinations (n + 1) xs

/-- Rust `has_any_4_concyclic`: some 4-element combination of `subset` is
concyclic. -/
def has_any_4_concyclic (subset : List Point) : Bool :=
  (combinations 4 subset).any fun comb4 =>
    match comb4 with
    | [p1, p2, p3, p4] => four_points_are_concyclic p1 p2 p3 p4
    | _ => false

/-- The per-`n` inner loop of `main`, carrying the combination counter `t`:
for each candidate subset, first test it (`break` with the subset when it
has no concyclic quadruple), otherwise emit a progress report `t / 10^7`
when the incremented counter is a multiple of `10^7`.  Returns the list of
progress reports and the first qualifying subset (if any). -/
def scanAux (t : Nat) : List (List Point) → List Nat × Option (List Point)
  | [] => ([], none)
  | s :: rest =>
    if ! has_any_4_concyclic s then
      ([], some s)
    else
      let r := scanAux (t + 1) rest
      (if (t + 1) % 10000000 == 0 then (t + 1) / 10000000 :: r.1 else r.1,
       r.2)

/-- The scan of all `n`-element subsets of `points`, counter starting at 0
(Rust: `let mut t: i64 = 0;` before the subset loop). -/
def scanN (points : List Point) (n : Nat) : List Nat × Option (List Point) :=
  scanAux 0 (combinations n points)

/-- Observable per-`n` events and the final line of `main`. -/
inductive Event where
  | found : Nat → List Point → Event
  | notFound : Nat → Event
  | finalLine : Event
deriving DecidableEq

/-- The outer loop of `main` over the sizes `ns`: for each `n`, if the scan
finds a qualifying subset, print the found line and continue with the next
size; otherwise print the not-found line and `break`. -/
def runRange (points : List Point) : List Nat → List Event
  | [] => []
  | n :: rest =>
    match (scanN points n).2 with
    | some s => Event.found n s :: runRange points rest
    | none => [Event.notFound n]

/-- The whole of `main` after the startup line: the outer loop followed by
the unconditional final `println!` (the source prints the final line on
every path out of the loop). -/
def programOutput (points : List Point) (ns : List Nat) : List Event :=
  runRange points ns ++ [Event.finalLine]

/-- Rust `hen = 6`. -/
def hen : Nat := 6

/-- Rust `all_points`: the 7×7 grid `(0..=6) × (0..=6)`, x-major. -/
def allPoints : List Point :=
  (List.range (hen + 1)).flatMap fun x =>
    (List.range (hen + 1)).map fun y => ((x : ℤ), (y : ℤ))

/-- The event trace of the reference run: sizes `13..=25` over the grid. -/
def mainEvents : List Event :=
  programOutput allPoints (List.range' 13 13)

/-! ## Basic facts about `EPS` -/

/-- `EPS` is the rational number `10^(-12)`. -/
theorem EPS_eq : EPS = 1 / 1000000000000 := by
  rw [EPS, Rat.mk'_eq_divInt, Rat.divInt_eq_div]
  push_cast
  norm_num

/-- An integer has absolute value below `EPS` exactly when it is zero. -/
theorem intCast_abs_lt_EPS (d : ℤ) : |(d : ℚ)| < EPS ↔ d = 0 := by
  constructor
  · intro h
    by_contra hd
    have h1 : (1 : ℚ) ≤ |(d : ℚ)| := by
      rw [← Int.cast_abs]
      exact_mod_cast Int.one_le_abs hd
    have h2 : EPS ≤ 1 := by rw [EPS_eq]; norm_num
    linarith
  · rintro rfl
    rw [EPS_eq]
    norm_num

/-! ## C4: `area2` and collinearity -/

/-- Three points lie on a common line: some `a*x + b*y + c = 0` with
`(a, b) ≠ (0, 0)` passes through all three. -/
def OnCommonLine (p1 p2 p3 : Point) : Prop :=
  ∃ a b c : ℤ, (a ≠ 0 ∨ b ≠ 0) ∧
    a * p1.1 + b * p1.2 + c = 0 ∧
    a * p2.1 + b * p2.2 + c = 0 ∧
    a * p3.1 + b * p3.2 + c = 0

/-- C4: `area2` returns the exact integer cross product
`(x2 - x1) * (y3 - y1) - (y2 - y1) * (x3 - x1)`, and this value is zero
exactly when `p1`, `p2`, `p3` lie on a common line. -/
theorem area2_cross_product_and_collinear (p1 p2 p3 : Point) :
    area2 p1 p2 p3 =
      (p2.1 - p1.1) * (p3.2 - p1.2) - (p2.2 - p1.2) * (p3.1 - p1.1) ∧
    (area2 p1 p2 p3 = 0 ↔ OnCommonLine p1 p2 p3) := by
  refine ⟨rfl, ?_, ?_⟩
  · intro h
    rw [area2] at h
    by_cases h2 : p2.1 = p1.1 ∧ p2.2 = p1.2
    · by_cases h3 : p3.1 = p1.1 ∧ p3.2 = p1.2
      · exact ⟨1, 0, -p1.1, Or.inl one_ne_zero, by ring,
          by rw [h2.1, h2.2]; ring, by rw [h3.1, h3.2]; ring⟩
      · refine ⟨p3.2 - p1.2, p1.1 - p3.1, p3.1 * p1.2 - p1.1 * p3.2, ?_,
          by ring, by rw [h2.1, h2.2]; ring, by ring⟩
        rcases not_and_or.mp h3 with hx | hy
        · exact Or.inr (fun hb => hx (by linarith [sub_eq_zero.mp hb]))
        · exact Or.inl (fun ha => hy (by linarith [sub_eq_zero.mp ha]))
    · refine ⟨p2.2 - p1.2, p1.1 - p2.1, p2.1 * p1.2 - p1.1 * p2.2, ?_,
        by ring, by ring, by linear_combination -h⟩
      rcases not_and_or.mp h2 with hx | hy
      · exact Or.inr (fun hb => hx (by linarith [sub_eq_zero.mp hb]))
      · exact Or.inl (fun ha => hy (by linarith [sub_eq_zero.mp ha]))
  · rintro ⟨a, b, c, hab, e1, e2, e3⟩
    have ha2 : a * (p2.1 - p1.1) + b * (p2.2 - p1.2) = 0 := by linarith
    have ha3 : a * (p3.1 - p1.1) + b * (p3.2 - p1.2) = 0 := by linarith
    rcases hab with ha | hb
    · have : a * area2 p1 p2 p3 = 0 := by
        rw [area2]
        linear_combination (p3.2 - p1.2) * ha2 - (p2.2 - p1.2) * ha3
      rcases mul_eq_zero.mp this with h | h
      · exact absurd h ha
      · exact h
    · have : b * area2 p1 p2 p3 = 0 := by
        rw [area2]
        linear_combination (p2.1 - p1.1) * ha3 - (p3.1 - p1.1) * ha2
      rcases mul_eq_zero.mp this with h | h
      · exact absurd h hb
      · exact h

/-! ## The lifted matrix and its determinant -/

/-- `det4` computes the determinant of a 4×4 matrix. -/
theorem det4_eq_det {R : Type} [CommRing R] (M : Matrix (Fin 4) (Fin 4) R) :
    M.det = det4 (M 0 0) (M 0 1) (M 0 2) (M 0 3) (M 1 0) (M 1 1) (M 1 2)
      (M 1 3) (M 2 0) (M 2 1) (M 2 2) (M 2 3) (M 3 0) (M 3 1) (M 3 2)
      (M 3 3) := by
  rw [Matrix.det_succ_row_zero]
  simp only [Fin.sum_univ_succ, Fin.sum_univ_zero, Matrix.det_fin_three,
    Matrix.submatrix_apply, Fin.succ_zero_eq_one, Fin.succ_one_eq_two,
    Fin.zero_succAbove, Fin.succ_succAbove_zero, Fin.succ_succAbove_one,
    Fin.succ_succAbove_succ, Fin.val_zero, Fin.val_succ, Fin.val_one,
    show (Fin.succ 2 : Fin 4) = 3 from rfl,
    show (Fin.succ 1 : Fin 4) = 2 from rfl,
    show (Fin.succ 0 : Fin 4) = 1 from rfl,
    show ((1 : Fin 3).succ = (2 : Fin 3)) from rfl,
    show ((0 : Fin 3).succ = (1 : Fin 3)) from rfl,
    show ((2 : Fin 3).succ = (3 : Fin 4)) from rfl,
    show (Fin.succAbove 1 2 : Fin 4) = 3 by decide,
    show (Fin.succAbove 2 2 : Fin 4) = 3 by decide,
    show (Fin.succAbove 3 2 : Fin 4) = 2 by decide]
  rw [det4, det3, det3, det3, det3]
  ring

/-- Row `[x² + y², x, y, 1]` of the lifted-paraboloid matrix, over `ℚ`. -/
def liftRow (p : Point) : Fin 4 → ℚ :=
  ![(p.1 : ℚ) * (p.1 : ℚ) + (p.2 : ℚ) * (p.2 : ℚ), (p.1 : ℚ), (p.2 : ℚ), 1]

/-- The lifted-paraboloid matrix of four points given as `q : Fin 4 → Point`:
row `i` is `liftRow (q i)`. -/
def liftMat (q : Fin 4 → Point) : Matrix (Fin 4) (Fin 4) ℚ :=
  Matrix.of fun i => liftRow (q i)

/-- The integer determinant computed by the code equals the determinant of
the lifted matrix. -/
theorem concyclicDet_cast (q : Fin 4 → Point) :
    ((concyclicDet (q 0) (q 1) (q 2) (q 3) : ℤ) : ℚ) = (liftMat q).det := by
  rw [det4_eq_det]
  simp only [liftMat, liftRow, Matrix.of_apply, Matrix.cons_val_zero,
    Matrix.cons_val_one, Matrix.head_cons, Matrix.cons_val_two,
    Matrix.tail_cons, Matrix.cons_val_three]
  simp only [concyclicDet, det4, det3]
  push_cast
  ring

/-- Four points that pass the code's collinearity test make the lifted
determinant vanish (collinear points satisfy the degenerate circle equation
`0*(x²+y²) + a*x + b*y + c = 0`). -/
theorem concyclicDet_eq_zero_of_collinear (p1 p2 p3 p4 : Point)
    (h : four_points_are_collinear p1 p2 p3 p4 = true) :
    concyclicDet p1 p2 p3 p4 = 0 := by
  rw [four_points_are_collinear, Bool.and_eq_true, beq_iff_eq, beq_iff_eq,
    area2, area2] at h
  obtain ⟨h3, h4⟩ := h
  have h3q : ((p2.1 : ℚ) - p1.1) * ((p3.2 : ℚ) - p1.2)
      - ((p2.2 : ℚ) - p1.2) * ((p3.1 : ℚ) - p1.1) = 0 := by
    exact_mod_cast h3
  have h4q : ((p2.1 : ℚ) - p1.1) * ((p4.2 : ℚ) - p1.2)
      - ((p2.2 : ℚ) - p1.2) * ((p4.1 : ℚ) - p1.1) = 0 := by
    exact_mod_cast h4
  have goal : ((concyclicDet p1 p2 p3 p4 : ℤ) : ℚ) = 0 := by
    simp only [concyclicDet, det4, det3]
    push_cast
    by_cases hx : (p2.1 : ℚ) - p1.1 = 0
    · by_cases hy : (p2.2 : ℚ) - p1.2 = 0
      · rw [sub_eq_zero] at hx hy
        rw [hx, hy]
        ring
      · have e3 : ((p2.2 : ℚ) - p1.2) * ((p3.1 : ℚ) - p1.1) = 0 := by
          linear_combination ((p3.2 : ℚ) - p1.2) * hx - h3q
        have e4 : ((p2.2 : ℚ) - p1.2) * ((p4.1 : ℚ) - p1.1) = 0 := by
          linear_combination ((p4.2 : ℚ) - p1.2) * hx - h4q
        have hx3 : (p3.1 : ℚ) = p1.1 := by
          rcases mul_eq_zero.mp e3 with h | h
          · exact absurd h hy
          · linarith [sub_eq_zero.mp h]
        have hx4 : (p4.1 : ℚ) = p1.1 := by
          rcases mul_eq_zero.mp e4 with h | h
          · exact absurd h hy
          · linarith [sub_eq_zero.mp h]
        rw [sub_eq_zero] at hx
        rw [hx, hx3, hx4]
        ring
    · have e3 : (p3.2 : ℚ) = p1.2
          + ((p2.2 : ℚ) - p1.2) * ((p3.1 : ℚ) - p1.1) / ((p2.1 : ℚ) - p1.1) := by
        field_simp
        linear_combination h3q
      have e4 : (p4.2 : ℚ) = p1.2
          + ((p2.2 : ℚ) - p1.2) * ((p4.1 : ℚ) - p1.1) / ((p2.1 : ℚ) - p1.1) := by
        field_simp
        linear_combination h4q
      rw [e3, e4]
      field_simp
      ring
  exact_mod_cast goal

/-- `four_points_are_concyclic` is the pure determinant test: collinear
quadruples also have `|det| < EPS`, so the collinearity branch is
absorbed. -/
theorem four_points_are_concyclic_eq_det_test (p1 p2 p3 p4 : Point) :
    four_points_are_concyclic p1 p2 p3 p4 =
      decide (|((concyclicDet p1 p2 p3 p4 : ℤ) : ℚ)| < EPS) := by
  rw [four_points_are_concyclic]
  by_cases h : four_points_are_collinear p1 p2 p3 p4 = true
  · rw [if_pos h, concyclicDet_eq_zero_of_collinear p1 p2 p3 p4 h]
    have h0 : (0 : ℚ) < EPS := by rw [EPS_eq]; norm_num
    simp [intCast_abs_lt_EPS, h0]
  · rw [if_neg h]

/-! ## C1: the concyclicity test on non-collinear quadruples -/

/-- Cofactor expansion of a 4×4 determinant along the first column (the
evaluation order named by the specification). -/
def detFirstColumn {R : Type} [CommRing R] (M : Matrix (Fin 4) (Fin 4) R) :
    R :=
  M 0 0 * det3 (M 1 1) (M 1 2) (M 1 3) (M 2 1) (M 2 2) (M 2 3) (M 3 1)
      (M 3 2) (M 3 3)
    - M 1 0 * det3 (M 0 1) (M 0 2) (M 0 3) (M 2 1) (M 2 2) (M 2 3) (M 3 1)
      (M 3 2) (M 3 3)
    + M 2 0 * det3 (M 0 1) (M 0 2) (M 0 3) (M 1 1) (M 1 2) (M 1 3) (M 3 1)
      (M 3 2) (M 3 3)
    - M 3 0 * det3 (M 0 1) (M 0 2) (M 0 3) (M 1 1) (M 1 2) (M 1 3) (M 2 1)
      (M 2 2) (M 2 3)

/-- Expansion along the first column computes the determinant (and hence
agrees with the code's expansion along the first row). -/
theorem detFirstColumn_eq_det {R : Type} [CommRing R]
    (M : Matrix (Fin 4) (Fin 4) R) : detFirstColumn M = M.det := by
  rw [det4_eq_det]
  simp only [detFirstColumn, det4, det3]
  ring

/-- C1: on a quadruple that fails the 4-point collinearity test,
`four_points_are_concyclic` returns `true` exactly when the absolute value
of the determinant of the matrix with row `i = [xᵢ²+yᵢ², xᵢ, yᵢ, 1]`
(evaluated by cofactor expansion along the first column) is strictly less
than `EPS`. -/
theorem concyclic_iff_abs_det_lt_EPS (p1 p2 p3 p4 : Point)
    (h : four_points_are_collinear p1 p2 p3 p4 = false) :
    (four_points_are_concyclic p1 p2 p3 p4 = true ↔
      |detFirstColumn (liftMat ![p1, p2, p3, p4])| < EPS) := by
  have hcast := concyclicDet_cast ![p1, p2, p3, p4]
  simp only [Matrix.cons_val_zero, Matrix.cons_val_one, Matrix.head_cons,
    Matrix.cons_val_two, Matrix.tail_cons, Matrix.cons_val_three] at hcast
  rw [detFirstColumn_eq_det, ← hcast, four_points_are_concyclic, h]
  simp

/-- Witness for C1 at the square `(0,0), (2,0), (2,2), (0,2)`. -/
theorem concyclic_iff_abs_det_lt_EPS_witness :
    four_points_are_collinear (0, 0) (2, 0) (2, 2) (0, 2) = false ∧
      (four_points_are_concyclic (0, 0) (2, 0) (2, 2) (0, 2) = true ↔
        |detFirstColumn (liftMat ![(0, 0), (2, 0), (2, 2), (0, 2)])| < EPS) :=
  ⟨by decide, concyclic_iff_abs_det_lt_EPS (0, 0) (2, 0) (2, 2) (0, 2)
    (by decide)⟩

/-! ## C2: collinear quadruples are reported concyclic -/

/-- C2: whenever the 4-point collinearity test holds, the concyclicity
predicate returns `true`; in particular it does on the collinear points
`(0,0), (1,0), (2,0), (3,0)`. -/
theorem collinear_implies_concyclic_true :
    (∀ p1 p2 p3 p4 : Point, four_points_are_collinear p1 p2 p3 p4 = true →
        four_points_are_concyclic p1 p2 p3 p4 = true) ∧
    four_points_are_concyclic (0, 0) (1, 0) (2, 0) (3, 0) = true := by
  constructor
  · intro p1 p2 p3 p4 h
    rw [four_points_are_concyclic, h]
    simp
  · decide

/-- Witness for C2 on a vertical collinear quadruple. -/
theorem collinear_implies_concyclic_true_witness :
    four_points_are_concyclic ((0 : ℤ), (5 : ℤ)) (0, 1) (0, 3) (0, 6) =
      true :=
  collinear_implies_concyclic_true.1 (0, 5) (0, 1) (0, 3) (0, 6) (by decide)

/-! ## C5: permutation invariance of the concyclicity test -/

/-- C5: `four_points_are_concyclic` is invariant under every permutation of
its four arguments (stated over all `σ` in the symmetric group on four
letters, which covers all 24 argument orders). -/
theorem concyclic_perm_invariant (q : Fin 4 → Point) (σ : Equiv.Perm (Fin 4)) :
    four_points_are_concyclic (q (σ 0)) (q (σ 1)) (q (σ 2)) (q (σ 3)) =
      four_points_are_concyclic (q 0) (q 1) (q 2) (q 3) := by
  rw [four_points_are_concyclic_eq_det_test,
    four_points_are_concyclic_eq_det_test]
  have h1 := concyclicDet_cast (fun i => q (σ i))
  have h2 := concyclicDet_cast q
  have hsub : liftMat (fun i => q (σ i)) = (liftMat q).submatrix σ id := rfl
  have habs : |(liftMat fun i => q (σ i)).det| = |(liftMat q).det| := by
    rw [hsub, Matrix.det_permute]
    rcases Int.units_eq_one_or (Equiv.Perm.sign σ) with h | h <;>
      rw [h] <;> simp
  rw [decide_eq_decide]
  rw [h1, h2, habs]

/-! ## Combinatorial facts about `combinations` -/

/-- The combinations of `l` of size `n` are exactly the sublists of `l` of
length `n`. -/
theorem mem_combinations {α : Type} {n : Nat} {l c : List α} :
    c ∈ combinations n l ↔ c.Sublist l ∧ c.length = n := by
  induction l generalizing n c with
  | nil =>
    cases n with
    | zero =>
      constructor
      · intro h
        rw [combinations, List.mem_singleton] at h
        exact ⟨h ▸ List.Sublist.refl [], h ▸ rfl⟩
      · rintro ⟨hs, hl⟩
        rw [combinations, List.mem_singleton, ← List.length_eq_zero, hl]
    | succ n =>
      constructor
      · intro h
        rw [combinations] at h
        exact absurd h (List.not_mem_nil c)
      · rintro ⟨hs, hl⟩
        rw [List.sublist_nil.mp hs] at hl
        exact absurd hl.symm (Nat.succ_ne_zero n)
  | cons x xs ih =>
    cases n with
    | zero =>
      constructor
      · intro h
        rw [combinations, List.mem_singleton] at h
        exact ⟨h ▸ List.nil_sublist _, h ▸ rfl⟩
      · rintro ⟨hs, hl⟩
        rw [combinations, List.mem_singleton, ← List.length_eq_zero, hl]
    | succ n =>
      rw [combinations, List.mem_append, List.mem_map]
      constructor
      · rintro (⟨c', hc', rfl⟩ | h)
        · obtain ⟨hs, hl⟩ := ih.mp hc'
          exact ⟨List.cons_sublist_cons.mpr hs, by simp [hl]⟩
        · obtain ⟨hs, hl⟩ := ih.mp h
          exact ⟨hs.cons x, hl⟩
      · rintro ⟨hs, hl⟩
        rcases List.sublist_cons_iff.mp hs with h | ⟨r, rfl, hr⟩
        · exact Or.inr (ih.mpr ⟨h, hl⟩)
        · exact Or.inl ⟨r, ih.mpr ⟨hr, by simpa using hl⟩, rfl⟩

/-- `combinations n l` has exactly `C(|l|, n)` elements. -/
theorem combinations_length {α : Type} (n : Nat) (l : List α) :
    (combinations n l).length = l.length.choose n := by
  induction l generalizing n with
  | nil => cases n <;> simp [combinations]
  | cons x xs ih =>
    cases n with
    | zero => simp [combinations]
    | succ n =>
      rw [combinations, List.length_append, List.length_map, ih, ih,
        List.length_cons, Nat.choose_succ_succ]

/-- Over a strictly sorted universe, `combinations` enumerates in strictly
increasing lexicographic order. -/
theorem combinations_pairwise_lex :
    ∀ l : List Nat, l.Pairwise (· < ·) → ∀ n : Nat,
      (combinations n l).Pairwise (fun c d => List.Lex (· < ·) c d) := by
  intro l
  induction l with
  | nil =>
    intro _ n
    cases n <;> simp [combinations]
  | cons x xs ih =>
    intro hl n
    have hx : ∀ z ∈ xs, x < z := (List.pairwise_cons.mp hl).1
    have hxs : xs.Pairwise (· < ·) := (List.pairwise_cons.mp hl).2
    cases n with
    | zero => simp [combinations]
    | succ n =>
      rw [combinations, List.pairwise_append]
      refine ⟨?_, ih hxs (n + 1), ?_⟩
      · rw [List.pairwise_map]
        exact (ih hxs n).imp fun h => List.Lex.cons h
      · intro a ha b hb
        rcases List.mem_map.mp ha with ⟨a', _, rfl⟩
        obtain ⟨hbs, hbl⟩ := mem_combinations.mp hb
        cases b with
        | nil => exact absurd hbl.symm (Nat.succ_ne_zero n)
        | cons y b' =>
          exact List.Lex.rel (hx y (hbs.subset (List.mem_cons_self y b')))

/-! ## C3: `has_any_4_concyclic` -/

/-- C3: `has_any_4_concyclic` returns `true` exactly when some 4-element
combination of distinct positions of the sequence (a length-4 sublist) is
concyclic; on sequences of fewer than 4 points it returns `false`. -/
theorem has_any_4_concyclic_iff :
    (∀ subset : List Point, has_any_4_concyclic subset = true ↔
      ∃ p1 p2 p3 p4 : Point, [p1, p2, p3, p4].Sublist subset ∧
        four_points_are_concyclic p1 p2 p3 p4 = true) ∧
    (∀ subset : List Point, subset.length < 4 →
      has_any_4_concyclic subset = false) := by
  constructor
  · intro subset
    rw [has_any_4_concyclic, List.any_eq_true]
    constructor
    · rintro ⟨c, hc, hp⟩
      obtain ⟨hs, hlen⟩ := mem_combinations.mp hc
      obtain ⟨p1, p2, p3, p4, rfl⟩ :
          ∃ a b cc d : Point, c = [a, b, cc, d] := by
        cases c with
        | nil => simp at hlen
        | cons a t1 =>
          cases t1 with
          | nil => simp at hlen
          | cons b t2 =>
            cases t2 with
            | nil => simp at hlen
            | cons cc t3 =>
              cases t3 with
              | nil => simp at hlen
              | cons d t4 =>
                cases t4 with
                | nil => exact ⟨a, b, cc, d, rfl⟩
                | cons e t5 => simp at hlen
      exact ⟨p1, p2, p3, p4, hs, hp⟩
    · rintro ⟨p1, p2, p3, p4, hs, hp⟩
      exact ⟨[p1, p2, p3, p4], mem_combinations.mpr ⟨hs, rfl⟩, hp⟩
  · intro subset hlen
    have h4 : combinations 4 subset = [] := by
      have hl := combinations_length 4 subset
      rw [Nat.choose_eq_zero_of_lt hlen] at hl
      exact List.length_eq_zero.mp hl
    rw [has_any_4_concyclic, h4]
    rfl

/-- Witness for C3: the boundary case of a 3-point sequence. -/
theorem has_any_4_concyclic_iff_witness :
    has_any_4_concyclic [((0 : ℤ), (0 : ℤ)), (1, 1), (2, 2)] = false :=
  has_any_4_concyclic_iff.2 [(0, 0), (1, 1), (2, 2)] (by decide)

/-! ## C9: the combination enumerator -/

/-- C9: over a universe of size `N` the enumerator yields exactly `C(N, n)`
index tuples, each strictly increasing, in strictly increasing
lexicographic order; for `N = 5`, `n = 3` it yields 10 tuples, the first
`(0,1,2)` and the last `(2,3,4)`. -/
theorem combinations_enumerator_spec :
    (∀ N n : Nat, (combinations n (List.range N)).length = N.choose n) ∧
    (∀ N n : Nat, ∀ c ∈ combinations n (List.range N),
      c.Pairwise (· < ·)) ∧
    (∀ N n : Nat, (combinations n (List.range N)).Pairwise
      (fun c d => List.Lex (· < ·) c d)) ∧
    (combinations 3 (List.range 5)).length = 10 ∧
    (combinations 3 (List.range 5)).head? = some [0, 1, 2] ∧
    (combinations 3 (List.range 5)).getLast? = some [2, 3, 4] := by
  refine ⟨?_, ?_, ?_, by decide, by decide, by decide⟩
  · intro N n
    rw [combinations_length, List.length_range]
  · intro N n c hc
    exact List.Pairwise.sublist (mem_combinations.mp hc).1
      (List.pairwise_lt_range N)
  · intro N n
    exact combinations_pairwise_lex (List.range N) (List.pairwise_lt_range N) n

/-- Witness for C9 at `N = 5`, `n = 3`, tuple `(0, 1, 2)`. -/
theorem combinations_enumerator_spec_witness :
    [0, 1, 2] ∈ combinations 3 (List.range 5) ∧
      [0, 1, 2].Pairwise (· < ·) :=
  ⟨by decide, combinations_enumerator_spec.2.1 5 3 [0, 1, 2] (by decide)⟩

/-! ## C8: the per-`n` scan, its progress reports and its result -/

/-- The number of combinations examined without finding a qualifying
subset: the longest prefix of candidates that all contain a concyclic
quadruple (when the scan succeeds, the succeeding candidate `break`s
before the progress check runs). -/
def examinedCount (combos : List (List Point)) : Nat :=
  (combos.takeWhile fun s => has_any_4_concyclic s).length

/-- The scan result is the first candidate without a concyclic quadruple,
independently of the progress machinery. -/
theorem scanAux_result (t : Nat) (combos : List (List Point)) :
    (scanAux t combos).2 =
      combos.find? fun s => ! has_any_4_concyclic s := by
  induction combos generalizing t with
  | nil => rfl
  | cons s rest ih =>
    by_cases h : has_any_4_concyclic s
    · simp [scanAux, List.find?_cons, h, ih (t + 1)]
    · simp [scanAux, List.find?_cons, h]

/-- The progress reports of the scan started at counter `t`: one line with
value `k / 10^7` for every multiple `k` of `10^7` among the counter values
`t+1, …, t + examinedCount`. -/
theorem scanAux_progress (t : Nat) (combos : List (List Point)) :
    (scanAux t combos).1 =
      ((List.range' (t + 1) (examinedCount combos)).filter
        (fun k => k % 10000000 == 0)).map fun k => k / 10000000 := by
  induction combos generalizing t with
  | nil => rfl
  | cons s rest ih =>
    by_cases h : has_any_4_concyclic s
    · have hE : examinedCount (s :: rest) = examinedCount rest + 1 := by
        simp [examinedCount, List.takeWhile_cons, h, Nat.add_comm]
      rw [hE, List.range'_succ]
      by_cases hm : (t + 1) % 10000000 == 0
      · simp [scanAux, h, hm, ih (t + 1), Nat.add_assoc]
      · simp [scanAux, h, hm, ih (t + 1), Nat.add_assoc]
    · have hE : examinedCount (s :: rest) = 0 := by
        simp [examinedCount, List.takeWhile_cons, h]
      rw [hE]
      simp [scanAux, h]

/-- C8: within each `n`'s scan the counter starts at zero, a progress line
with value `t / 10^7` is emitted exactly at the counter values `t` that are
multiples of `10^7` among the combinations examined (those that did not end
the scan), and the reporting does not alter the search outcome: the result
is still the first combination with no concyclic quadruple. -/
theorem progress_reporting_spec (points : List Point) (n : Nat) :
    (scanN points n).2 =
      (combinations n points).find? (fun s => ! has_any_4_concyclic s) ∧
    (scanN points n).1 =
      ((List.range' 1 (examinedCount (combinations n points))).filter
        (fun k => k % 10000000 == 0)).map (fun k => k / 10000000) := by
  refine ⟨scanAux_result 0 _, ?_⟩
  have h := scanAux_progress 0 (combinations n points)
  simpa using h

/-! ## C6: the outer loop halts at the first failing size -/

/-- C6: if every size in `pre` admits a qualifying subset and size `n` does
not, the outer loop over `pre ++ n :: rest` emits the events for `pre`,
then the not-found line for `n`, and nothing for any later size: the per-`n`
loop is never entered again. -/
theorem halts_after_first_notfound (points : List Point)
    (pre rest : List Nat) (n : Nat)
    (hpre : ∀ m ∈ pre, (scanN points m).2 ≠ none)
    (hn : (scanN points n).2 = none) :
    runRange points (pre ++ n :: rest) =
      runRange points pre ++ [Event.notFound n] := by
  induction pre with
  | nil => simp [runRange, hn]
  | cons m pre ih =>
    obtain ⟨s, hs⟩ := Option.ne_none_iff_exists'.mp
      (hpre m (List.mem_cons_self m pre))
    have ihr := ih fun m' hm' => hpre m' (List.mem_cons_of_mem m hm')
    simp only [List.cons_append, runRange, hs, List.append_eq, ihr]

/-- Witness for C6: on the four collinear points, size 3 succeeds, size 4
fails, and size 5 is never examined. -/
theorem halts_after_first_notfound_witness :
    runRange [((0 : ℤ), (0 : ℤ)), (1, 0), (2, 0), (3, 0)] ([3] ++ 4 :: [5]) =
      runRange [((0 : ℤ), (0 : ℤ)), (1, 0), (2, 0), (3, 0)] [3] ++
        [Event.notFound 4] :=
  halts_after_first_notfound _ [3] [5] 4 (by decide) (by decide)

/-! ## C7: the final line is printed unconditionally -/

/-- C7 (against the claim): on a run whose size-4 scan finds no qualifying
subset, the program still prints the final "no qualifying subset was found
at all" line, immediately after the not-found line — the final `println!`
of `main` is unconditional. -/
theorem final_line_printed_after_notfound :
    programOutput [((0 : ℤ), (0 : ℤ)), (1, 0), (2, 0), (3, 0)] [4] =
      [Event.notFound 4, Event.finalLine] := by
  decide
